import Mathlib

/-!
Verification of the EasyMeter real-time analysis core
(`Source/Meters.h`, `Source/Spectrogram.cpp`, `Source/PluginProcessor.h`).

The C++ float/double arithmetic is embedded over `ℝ`; machine integers
(`int`, `size_t`) over `Nat`/`Int` with the modulo/clamping operations made
explicit.  Each definition is a direct translation of the named source
function; definitions carrying `Spec` in their name instead follow the
wording of the specification and are compared with the source-derived
definitions.
-/

namespace EasyMeter

/-! ### Ring-buffer discipline

Shared by the oscilloscope buffer (Meters.h 1209-1216), the shared loudness
history (1271-1276), the waveform bucket rings (1163-1188), the internal
short-term history (`pushShortTermHistoryValue`, 1360-1370) and the
integrated-block ring (`pushIntegratedBlock`, 1286-1298): store at the write
index, advance it modulo the capacity, saturate the filled counter at the
capacity. -/

structure RingBuf (α : Type) where
  buf : List α
  w : Nat
  filled : Nat

/-- One store into the ring: `buf[w] = x; w = (w + 1) % capacity;
filled = min(capacity, filled + 1)`. -/
def RingBuf.push {α : Type} (r : RingBuf α) (x : α) : RingBuf α :=
  { buf := r.buf.set r.w x
    w := (r.w + 1) % r.buf.length
    filled := min r.buf.length (r.filled + 1) }

def RingBuf.pushAll {α : Type} (r : RingBuf α) (xs : List α) : RingBuf α :=
  xs.foldl RingBuf.push r

/-- A freshly prepared ring: zero-initialised storage, write index and
filled count 0 (as set up in `prepareToPlay`). -/
def RingBuf.fresh {α : Type} (cap : Nat) (d : α) : RingBuf α :=
  { buf := List.replicate cap d, w := 0, filled := 0 }

/-- Linear read-out of `cnt` entries ending at the write cursor, starting at
`(w + capacity - cnt) % capacity`, as done by `updateIntegratedMetrics`
(Meters.h 1309-1323) and `updateLoudnessRange` (1380-1388). -/
def ringRead {α : Type} (buf : List α) (w cnt : Nat) (d : α) : List α :=
  (List.range cnt).map fun i =>
    buf.getD (((w + buf.length - cnt) % buf.length + i) % buf.length) d

/-- The snapshot read-out (`fillSnapshot`, Meters.h 1581-1610, 1626-1641,
1684-1695): at most `min capacity filled` valid entries, linearised
oldest-to-newest. -/
def ringSlice {α : Type} (buf : List α) (w filled : Nat) (d : α) : List α :=
  ringRead buf w (min buf.length filled) d

def RingBuf.slice {α : Type} (r : RingBuf α) (d : α) : List α :=
  ringSlice r.buf r.w r.filled d

/-! ### Spectrogram-history ring

The spectrogram column ring (Meters.h 1231-1240) tracks fullness with a
`wrapped` flag instead of a filled counter; an entry here is one whole
column of bin magnitudes. -/

structure SpecRing (α : Type) where
  buf : List α
  w : Nat
  wrapped : Bool

/-- One column write (Meters.h 1234-1239): store at the write position,
advance modulo the width, raise `wrapped` when the position returns to 0. -/
def SpecRing.push {α : Type} (r : SpecRing α) (x : α) : SpecRing α :=
  let w2 := (r.w + 1) % r.buf.length
  { buf := r.buf.set r.w x, w := w2, wrapped := r.wrapped || decide (w2 = 0) }

def SpecRing.pushAll {α : Type} (r : SpecRing α) (xs : List α) : SpecRing α :=
  xs.foldl SpecRing.push r

def SpecRing.fresh {α : Type} (cap : Nat) (d : α) : SpecRing α :=
  { buf := List.replicate cap d, w := 0, wrapped := false }

/-- Consumer-side linearisation of the spectrogram ring
(Spectrogram.cpp 341-374): when wrapped, all columns starting at the write
position; otherwise the first `writePosition` columns in storage order. -/
def SpecRing.orderedColumns {α : Type} (r : SpecRing α) (d : α) : List α :=
  if r.wrapped then
    (List.range r.buf.length).map fun i => r.buf.getD ((r.w + i) % r.buf.length) d
  else r.buf.take (min r.w r.buf.length)

/-! ### Shared state and snapshot publication

Value-level model of `SharedState`, `SharedDataSnapshot` and `TransportInfo`
(PluginProcessor.h) and of the consumer-side copy routines `fillSnapshot`
(Meters.h 1561-1700) and `requestAudioDump` (1702-1710).  The stereo audio
history buffer is modelled as its two channel sample lists; the spectrogram
as its list of columns.  The try-lock outcome is an explicit argument: when
the lock is not acquired both routines return before touching the
destination. -/

structure TransportInfoM where
  hasInfo : Bool
  bpm : ℝ
  ppqPosition : ℝ
  ppqPositionOfLastBarStart : ℝ
  timeSigNumerator : Int
  timeSigDenominator : Int
  isPlaying : Bool

structure SharedStateM where
  audioHistoryL : List ℝ
  audioHistoryR : List ℝ
  writePosition : Nat
  hasWrapped : Bool
  spectrum : List ℝ
  spectrumAverages : List ℝ
  waveformMinL : List ℝ
  waveformMaxL : List ℝ
  waveformMinR : List ℝ
  waveformMaxR : List ℝ
  waveformBandEnergyLLow : List ℝ
  waveformBandEnergyLMid : List ℝ
  waveformBandEnergyLHigh : List ℝ
  waveformBandEnergyRLow : List ℝ
  waveformBandEnergyRMid : List ℝ
  waveformBandEnergyRHigh : List ℝ
  waveformSamplesPerBucket : Int
  waveformWriteIndex : Nat
  waveformFilled : Nat
  oscilloscopeBuffer : List ℝ
  oscilloscopeWriteIndex : Nat
  oscilloscopeFilled : Nat
  spectrogramHistory : List (List ℝ)
  spectrogramWritePosition : Nat
  spectrogramWrapped : Bool
  lissajousPoints : List (ℝ × ℝ)
  lissajousCount : Nat
  momentaryLufs : ℝ
  shortTermLufs : ℝ
  integratedLufs : ℝ
  loudnessRange : ℝ
  maxMomentary : ℝ
  maxShortTerm : ℝ
  rmsFast : ℝ
  rmsSlow : ℝ
  correlation : ℝ
  stereoWidth : ℝ
  leftRms : ℝ
  rightRms : ℝ
  midRms : ℝ
  sideRms : ℝ
  balanceDb : ℝ
  vuNeedleL : ℝ
  vuNeedleR : ℝ
  clippedL : Bool
  clippedR : Bool
  loudnessHistory : List ℝ
  loudnessHistoryWrite : Nat
  loudnessHistoryFilled : Nat
  loudnessHistoryInterval : ℝ
  transport : TransportInfoM

structure SnapshotM where
  audioHistoryL : List ℝ
  audioHistoryR : List ℝ
  writePosition : Nat
  bufferWrapped : Bool
  waveformLeftMins : List ℝ
  waveformLeftMaxs : List ℝ
  waveformRightMins : List ℝ
  waveformRightMaxs : List ℝ
  waveformSamplesPerBucket : Int
  waveformLeftLowBand : List ℝ
  waveformLeftMidBand : List ℝ
  waveformLeftHighBand : List ℝ
  waveformRightLowBand : List ℝ
  waveformRightMidBand : List ℝ
  waveformRightHighBand : List ℝ
  oscilloscope : List ℝ
  spectrum : List ℝ
  spectrogram : List (List ℝ)
  spectrogramWritePosition : Nat
  spectrogramWrapped : Bool
  lissajous : List (ℝ × ℝ)
  lissajousCount : Nat
  momentaryLufs : ℝ
  shortTermLufs : ℝ
  integratedLufs : ℝ
  loudnessRange : ℝ
  maxMomentaryLufs : ℝ
  maxShortTermLufs : ℝ
  rmsFast : ℝ
  rmsSlow : ℝ
  correlation : ℝ
  stereoWidth : ℝ
  leftRms : ℝ
  rightRms : ℝ
  midRms : ℝ
  sideRms : ℝ
  balanceDb : ℝ
  vuNeedleL : ℝ
  vuNeedleR : ℝ
  clipLeft : Bool
  clipRight : Bool
  peakLeft : ℝ
  peakRight : ℝ
  sampleRate : ℝ
  loudnessHistoryInterval : ℝ
  loudnessHistory : List ℝ
  transport : TransportInfoM

/-- `fillSnapshot` (Meters.h 1561-1700).  `lockAcquired` is the result of
the non-blocking `ScopedTryLockType` attempt: when it fails the routine
returns at once and the caller's snapshot keeps every previous field (the
function is total and has no error result).  When the lock is held, every
field is value-copied; the ring histories are linearised with `ringSlice`
exactly as the three copy loops do (a zero `valid` count yields the same
empty list as the explicit clearing branches of the source). -/
def fillSnapshot (lockAcquired : Bool) (st : SharedStateM)
    (peakLAtomic peakRAtomic sampleRate : ℝ) (includeAudioHistory : Bool)
    (snapshot : SnapshotM) : SnapshotM :=
  if !lockAcquired then snapshot
  else
    let bucketCapacity := st.waveformMinL.length
    let validWaveform := min st.waveformFilled bucketCapacity
    let wstart := (st.waveformWriteIndex + bucketCapacity - validWaveform) % bucketCapacity
    let wSlice := fun (buf : List ℝ) =>
      (List.range validWaveform).map fun i => buf.getD ((wstart + i) % bucketCapacity) 0
    { audioHistoryL :=
        if includeAudioHistory then
          (if 0 < st.audioHistoryL.length then st.audioHistoryL
           else snapshot.audioHistoryL)
        else []
      audioHistoryR :=
        if includeAudioHistory then
          (if 0 < st.audioHistoryL.length then st.audioHistoryR
           else snapshot.audioHistoryR)
        else []
      writePosition := st.writePosition
      bufferWrapped := st.hasWrapped
      waveformSamplesPerBucket := st.waveformSamplesPerBucket
      waveformLeftMins := wSlice st.waveformMinL
      waveformLeftMaxs := wSlice st.waveformMaxL
      waveformRightMins := wSlice st.waveformMinR
      waveformRightMaxs := wSlice st.waveformMaxR
      waveformLeftLowBand := wSlice st.waveformBandEnergyLLow
      waveformLeftMidBand := wSlice st.waveformBandEnergyLMid
      waveformLeftHighBand := wSlice st.waveformBandEnergyLHigh
      waveformRightLowBand := wSlice st.waveformBandEnergyRLow
      waveformRightMidBand := wSlice st.waveformBandEnergyRMid
      waveformRightHighBand := wSlice st.waveformBandEnergyRHigh
      oscilloscope :=
        ringSlice st.oscilloscopeBuffer st.oscilloscopeWriteIndex st.oscilloscopeFilled 0
      spectrum := st.spectrumAverages
      spectrogram :=
        if 0 < st.spectrogramHistory.length then st.spectrogramHistory
        else snapshot.spectrogram
      spectrogramWritePosition :=
        if 0 < st.spectrogramHistory.length then st.spectrogramWritePosition
        else snapshot.spectrogramWritePosition
      spectrogramWrapped :=
        if 0 < st.spectrogramHistory.length then st.spectrogramWrapped
        else snapshot.spectrogramWrapped
      lissajousCount := st.lissajousCount
      lissajous :=
        st.lissajousPoints.take st.lissajousCount
          ++ snapshot.lissajous.drop st.lissajousCount
      momentaryLufs := st.momentaryLufs
      shortTermLufs := st.shortTermLufs
      integratedLufs := st.integratedLufs
      loudnessRange := st.loudnessRange
      maxMomentaryLufs := st.maxMomentary
      maxShortTermLufs := st.maxShortTerm
      rmsFast := st.rmsFast
      rmsSlow := st.rmsSlow
      correlation := st.correlation
      stereoWidth := st.stereoWidth
      leftRms := st.leftRms
      rightRms := st.rightRms
      midRms := st.midRms
      sideRms := st.sideRms
      balanceDb := st.balanceDb
      vuNeedleL := st.vuNeedleL
      vuNeedleR := st.vuNeedleR
      clipLeft := st.clippedL
      clipRight := st.clippedR
      peakLeft := peakLAtomic
      peakRight := peakRAtomic
      sampleRate := sampleRate
      loudnessHistoryInterval := st.loudnessHistoryInterval
      loudnessHistory :=
        ringSlice st.loudnessHistory st.loudnessHistoryWrite st.loudnessHistoryFilled 0
      transport := st.transport }

structure AudioDumpDest where
  bufferL : List ℝ
  bufferR : List ℝ
  hasWrapped : Bool

/-- `requestAudioDump` (Meters.h 1702-1710): under the same try-lock
discipline, either copies the raw audio-history ring plus its wrap flag or
leaves the destination untouched. -/
def requestAudioDump (lockAcquired : Bool) (st : SharedStateM)
    (dest : AudioDumpDest) : AudioDumpDest :=
  if !lockAcquired then dest
  else
    { bufferL := st.audioHistoryL
      bufferR := st.audioHistoryR
      hasWrapped := st.hasWrapped }

/-! ### Loudness engine: gated integrated loudness -/

/-- `energyToLoudness` (Meters.h 1281-1284):
`-0.691 + 10 * log10(max(1e-12, energy))`. -/
noncomputable def energyToLoudness (energy : ℝ) : ℝ :=
  -0.691 + 10 * Real.logb 10 (max 1.0e-12 energy)

/-- Core of `updateIntegratedMetrics` (Meters.h 1316-1356) applied to the
linearised list of stored block energies:  stage 1 keeps the blocks whose
loudness is strictly above the -70 LUFS absolute gate (none left yields the
-100 sentinel); stage 2 averages the survivors, derives the relative gate
10 LU below that average's loudness, and returns the loudness of the mean
energy of the blocks at or above the relative gate, falling back to the
ungated average loudness if the relative gate removed everything. -/
noncomputable def integratedFromBlocks (blocks : List ℝ) : ℝ :=
  let survivors := blocks.filter fun e => decide (energyToLoudness e > -70)
  if survivors.length = 0 then -100
  else
    let averageEnergy := survivors.sum / (survivors.length : ℝ)
    let averageLoudness := energyToLoudness averageEnergy
    let relativeGate := averageLoudness - 10
    let gated := survivors.filter fun e => decide (energyToLoudness e ≥ relativeGate)
    if gated.length = 0 then averageLoudness
    else energyToLoudness (gated.sum / (gated.length : ℝ))

/-- `updateIntegratedMetrics` (Meters.h 1300-1358) on the ring state: an
empty ring (or nothing stored yet) publishes the -100 sentinel; otherwise
the stored energies are linearised oldest-to-newest and gated. -/
noncomputable def updateIntegratedMetrics (buf : List ℝ) (w filled : Nat) : ℝ :=
  if filled = 0 ∨ buf.length = 0 then -100
  else integratedFromBlocks (ringRead buf w filled 0)

/-- The two-stage gate as the specification words it, with its literal
stage-1 boundary: only blocks whose loudness is strictly *below* -70 LUFS
are discarded, i.e. a block at exactly -70 survives. -/
noncomputable def integratedSpecLiteral (blocks : List ℝ) : ℝ :=
  let survivors := blocks.filter fun e => decide (energyToLoudness e ≥ -70)
  if survivors.length = 0 then -100
  else
    let averageEnergy := survivors.sum / (survivors.length : ℝ)
    let averageLoudness := energyToLoudness averageEnergy
    let relativeGate := averageLoudness - 10
    let gated := survivors.filter fun e => decide (energyToLoudness e ≥ relativeGate)
    if gated.length = 0 then averageLoudness
    else energyToLoudness (gated.sum / (gated.length : ℝ))

/-- The specification's two-stage gate with the stage-1 boundary amended to
match the source: blocks whose loudness is at or below -70 LUFS are
discarded (survivors are strictly above the absolute gate). -/
noncomputable def integratedSpecAmended (blocks : List ℝ) : ℝ :=
  let survivors := blocks.filter fun e => decide (¬ energyToLoudness e ≤ -70)
  if survivors.length = 0 then -100
  else
    let averageEnergy := survivors.sum / (survivors.length : ℝ)
    let averageLoudness := energyToLoudness averageEnergy
    let relativeGate := averageLoudness - 10
    let gated := survivors.filter fun e => decide (energyToLoudness e ≥ relativeGate)
    if gated.length = 0 then averageLoudness
    else energyToLoudness (gated.sum / (gated.length : ℝ))

/-- A block energy whose loudness is exactly the -70 LUFS absolute gate:
`-0.691 + 10 * log10(10 ^ (-6.9309)) = -70`. -/
noncomputable def gateBoundaryEnergy : ℝ := (10 : ℝ) ^ (-(6.9309 : ℝ))

/-! ### Loudness range (LRA) -/

/-- The percentile evaluation inside `updateLoudnessRange`
(Meters.h 1407-1416): index `(valid - 1) * p`, `lower = floor(index)`,
`upper = min(valid - 1, lower + 1)`, linear interpolation by the fractional
part of the index. -/
noncomputable def sortedPercentile (sorted : List ℝ) (valid : Nat) (p : ℝ) : ℝ :=
  let index : ℝ := ((valid - 1 : Nat) : ℝ) * p
  let lower : Nat := ⌊index⌋₊
  let upper : Nat := min (valid - 1) (lower + 1)
  let fraction : ℝ := index - (lower : ℝ)
  sorted.getD lower 0 + (sorted.getD upper 0 - sorted.getD lower 0) * fraction

/-- Core of `updateLoudnessRange` (Meters.h 1390-1420) on the linearised
short-term history: drop samples below `integrated - 20`, return 0 when
fewer than two remain, otherwise sort and take `max 0 (P95 - P10)`. -/
noncomputable def lraCore (samples : List ℝ) (integrated : ℝ) : ℝ :=
  let gatingThreshold := integrated - 20
  let remaining := samples.filter fun v => decide (¬ v < gatingThreshold)
  if remaining.length < 2 then 0
  else
    let sorted := remaining.insertionSort (· ≤ ·)
    let low := sortedPercentile sorted remaining.length 0.10
    let high := sortedPercentile sorted remaining.length 0.95
    max 0 (high - low)

/-- `updateLoudnessRange` (Meters.h 1372-1421) on the ring state: fewer
than two stored samples (or an unallocated ring) give 0, otherwise the ring
is linearised oldest-to-newest and gated. -/
noncomputable def updateLoudnessRange (buf : List ℝ) (w filled : Nat)
    (integrated : ℝ) : ℝ :=
  if filled < 2 ∨ buf.length = 0 then 0
  else lraCore (ringRead buf w filled 0) integrated

/-- Interpolated percentile as the specification words it: linear
interpolation between the floor and the ceiling order statistics of the
fractional index `(n - 1) * p`. -/
noncomputable def lraSpecPercentile (sorted : List ℝ) (valid : Nat) (p : ℝ) : ℝ :=
  let index : ℝ := ((valid - 1 : Nat) : ℝ) * p
  let lower : Nat := ⌊index⌋₊
  let upper : Nat := ⌈index⌉₊
  let fraction : ℝ := index - (lower : ℝ)
  sorted.getD lower 0 + (sorted.getD upper 0 - sorted.getD lower 0) * fraction

/-- Loudness range as the specification words it: discard samples below
`integrated - 20`; with fewer than 2 left the range is 0; otherwise sort
the remaining values and return P95 - P10 (no clamp). -/
noncomputable def lraSpec (samples : List ℝ) (integrated : ℝ) : ℝ :=
  let remaining := samples.filter fun v => decide (integrated - 20 ≤ v)
  if remaining.length < 2 then 0
  else
    let sorted := remaining.insertionSort (· ≤ ·)
    lraSpecPercentile sorted remaining.length 0.95
      - lraSpecPercentile sorted remaining.length 0.10

/-! ### Stereo correlation -/

/-- JUCE `jlimit(lo, hi, v)`: returns `lo` below the range, `hi` above it,
`v` otherwise. -/
noncomputable def jlimit (lo hi v : ℝ) : ℝ :=
  if v < lo then lo else if hi < v then hi else v

/-- Sum of squared samples of one channel's block. -/
noncomputable def sumSq (xs : List ℝ) : ℝ :=
  (xs.map fun x => x * x).sum

/-- The per-block stereo correlation (Meters.h 993-1014): the dot product
of the two channels over the product of their magnitudes, clamped to
[-1, 1]; left at 0 when either block magnitude is at or below 1e-9. -/
noncomputable def blockCorrelation (l r : List ℝ) : ℝ :=
  let dot := (List.zipWith (· * ·) l r).sum
  let magL := Real.sqrt (sumSq l)
  let magR := Real.sqrt (sumSq r)
  if 1.0e-9 < magL ∧ 1.0e-9 < magR then jlimit (-1) 1 (dot / (magL * magR)) else 0

/-! ### Spectral analyzer input accumulator -/

/-- `juce::dsp::FFT fft { 11 }` (PluginProcessor.h 242): transform length
`2 ^ 11 = 2048` samples. -/
def fftSize : Nat := 2 ^ 11

/-- `fftHop = jmax(1, fft.getSize() / 4)` (Meters.h 726). -/
def fftHopOf (size : Nat) : Nat := max 1 (size / 4)

/-- State of the FFT input accumulator (Meters.h 1060-1090): the sliding
input buffer, the next write position, and the accumulator contents
captured at each emitted spectrum frame (the published frame is the
windowed transform of that content). -/
structure FftAcc (α : Type) where
  fftInput : List α
  fftInputPos : Nat
  frames : List (List α)

/-- One sample into the accumulator (Meters.h 1062-1089): store and
advance; when the buffer fills, capture a frame, left-rotate the buffer by
`size - hop` (`std::rotate` with middle `begin + (size - hop)`) and resume
writing at position `hop`. -/
def fftPush {α : Type} (size hop : Nat) (s : FftAcc α) (x : α) : FftAcc α :=
  let buf := s.fftInput.set s.fftInputPos x
  let pos := s.fftInputPos + 1
  if size ≤ pos then
    { fftInput := buf.rotateLeft (size - hop)
      fftInputPos := hop
      frames := s.frames ++ [buf] }
  else
    { fftInput := buf, fftInputPos := pos, frames := s.frames }

def fftFeed {α : Type} (size hop : Nat) (s : FftAcc α) (xs : List α) : FftAcc α :=
  xs.foldl (fftPush size hop) s

/-- The accumulator right after `prepareToPlay` (Meters.h 721-726):
zero-filled buffer, write position 0, no frame yet. -/
def FftAcc.fresh {α : Type} (size : Nat) (d : α) : FftAcc α :=
  { fftInput := List.replicate size d, fftInputPos := 0, frames := [] }

/-! ### Loudness statistics reset -/

/-- Processor fields written by or observable around
`resetLoudnessStatistics` (Meters.h 1754-1769): max-hold values, atomic
peaks, shared clip flags, the shared display loudness-history ring, the
private short-term history ring feeding the LRA computation, and the live
momentary / short-term energy accumulators. -/
structure LoudnessStatsState where
  maxMomentaryLufs : ℝ
  maxShortTermLufs : ℝ
  peakL : ℝ
  peakR : ℝ
  sharedMaxMomentary : ℝ
  sharedMaxShortTerm : ℝ
  sharedClippedL : Bool
  sharedClippedR : Bool
  sharedLoudnessHistory : List ℝ
  sharedLoudnessHistoryWrite : Nat
  sharedLoudnessHistoryFilled : Nat
  shortTermHistoryBuffer : List ℝ
  shortTermHistoryWriteIndex : Nat
  shortTermHistoryFilled : Nat
  momentaryEnergy : ℝ
  shortTermEnergy : ℝ

/-- `resetLoudnessStatistics` (Meters.h 1754-1769): resets the max-hold
values and atomic peaks, clears the shared clip flags, zeroes the shared
loudness-history ring's indices and fills its storage with the -100
sentinel; every field not listed here — notably the live energy
accumulators and the private LRA short-term ring — is left unchanged. -/
noncomputable def resetLoudnessStatistics (s : LoudnessStatsState) :
    LoudnessStatsState :=
  { s with
    maxMomentaryLufs := -100
    maxShortTermLufs := -100
    peakL := 0
    peakR := 0
    sharedMaxMomentary := -100
    sharedMaxShortTerm := -100
    sharedClippedL := false
    sharedClippedR := false
    sharedLoudnessHistoryWrite := 0
    sharedLoudnessHistoryFilled := 0
    sharedLoudnessHistory :=
      List.replicate s.sharedLoudnessHistory.length (-100) }

/-- A concrete pre-reset state with live data in both history rings. -/
noncomputable def c7State : LoudnessStatsState :=
  { maxMomentaryLufs := -5
    maxShortTermLufs := -7
    peakL := 0.5
    peakR := 0.5
    sharedMaxMomentary := -5
    sharedMaxShortTerm := -7
    sharedClippedL := true
    sharedClippedR := true
    sharedLoudnessHistory := [0, 0]
    sharedLoudnessHistoryWrite := 1
    sharedLoudnessHistoryFilled := 2
    shortTermHistoryBuffer := [3]
    shortTermHistoryWriteIndex := 1
    shortTermHistoryFilled := 1
    momentaryEnergy := 0.25
    shortTermEnergy := 0.25 }

/-! ### prepareToPlay configuration -/

/-- C-style `(int) std::round`: round half away from zero. -/
noncomputable def croundI (x : ℝ) : Int :=
  if x < 0 then -round (-x) else round x

/-- The rate-derived configuration computed by `prepareToPlay`
(Meters.h 634-661, 691-695, 713, 726, 772-776) and `setBallistics`
(1490-1496). -/
structure PrepState where
  sampleRate : ℝ
  maximumBlockSize : Int
  historySamples : Int
  integratedBlockSamples : Int
  integratedCapacity : Int
  loudnessHistoryIntervalSamples : Int
  loudnessHistoryCapacity : Int
  waveformSamplesPerBucket : Int
  oscilloscopeCapacity : Int
  fftHop : Int
  spectrogramHistoryWidth : Int
  loudnessHistoryInterval : ℝ
  momentaryCoeff : ℝ
  shortTermCoeff : ℝ
  rmsFastCoeff : ℝ
  rmsSlowCoeff : ℝ
  vuCoeff : ℝ
  peakRiseCoeff : ℝ
  peakFallCoeff : ℝ
  rmsCoeff : ℝ

/-- `prepareToPlay` (Meters.h 634-777): no validation of the sample rate
or block size is performed; every rate-derived count is computed directly,
floored at 1 by `jmax`, and the smoothing coefficients are
`exp(-1/(seconds * sampleRate))`.  The only division by the sample rate
outside an `exp` argument is guarded by `sampleRate > 0`. -/
noncomputable def prepareToPlay (sr : ℝ) (samplesPerBlock : Int) : PrepState :=
  let historySamples := max 1 (croundI (sr * 10))
  { sampleRate := sr
    maximumBlockSize := max 1 samplesPerBlock
    historySamples := historySamples
    integratedBlockSamples := max 1 (croundI (sr * 0.4))
    integratedCapacity := max 1 (croundI (600.0 / 0.4))
    loudnessHistoryIntervalSamples := max 1 (croundI (sr * 0.05))
    loudnessHistoryCapacity := max 1 (croundI (20.0 / 0.05))
    waveformSamplesPerBucket := max 1 (historySamples / 512)
    oscilloscopeCapacity := 2048
    fftHop := max 1 (2048 / 4)
    spectrogramHistoryWidth :=
      max 1 ⌈3.0 * sr / ((max 1 (2048 / 4) : Nat) : ℝ)⌉
    loudnessHistoryInterval :=
      if 0 < sr then ((max 1 (croundI (sr * 0.05)) : Int) : ℝ) / sr else 0
    momentaryCoeff := Real.exp (-1 / (0.4 * sr))
    shortTermCoeff := Real.exp (-1 / (3.0 * sr))
    rmsFastCoeff := Real.exp (-1 / (0.3 * sr))
    rmsSlowCoeff := Real.exp (-1 / (1.0 * sr))
    vuCoeff := Real.exp (-1 / (0.3 * sr))
    peakRiseCoeff := Real.exp (-1 / ((10 * 0.001) * sr))
    peakFallCoeff := Real.exp (-1 / ((300 * 0.001) * sr))
    rmsCoeff := Real.exp (-1 / ((300 * 0.001) * sr)) }

/-! ### Ballistic envelope trackers -/

/-- The coefficient lambda in `setBallistics` (Meters.h 1492):
`exp(-1 / ((ms * 0.001) * sampleRate))`. -/
noncomputable def ballisticCoeff (sampleRate ms : ℝ) : ℝ :=
  Real.exp (-1 / ((ms * 0.001) * sampleRate))

/-- One per-sample peak-envelope update (Meters.h 900-917): the rise
coefficient when the absolute sample exceeds the envelope, the fall
coefficient otherwise. -/
noncomputable def peakStep (rise fall envelope sample : ℝ) : ℝ :=
  if |sample| > envelope then rise * envelope + (1 - rise) * |sample|
  else fall * envelope + (1 - fall) * |sample|

noncomputable def peakEnvelope (rise fall p0 : ℝ) (xs : List ℝ) : ℝ :=
  xs.foldl (peakStep rise fall) p0

/-- The block RMS amplitude `sqrt(acc / max 1 n)` (Meters.h 940-941). -/
noncomputable def rmsBlockValue (xs : List ℝ) : ℝ :=
  Real.sqrt (sumSq xs / ((max 1 xs.length : Nat) : ℝ))

/-- The published per-channel RMS smoothing (Meters.h 943-946): the single
300 ms coefficient applied once per block to the block's RMS amplitude. -/
noncomputable def publishedRmsStep (rmsCoeff prev : ℝ) (xs : List ℝ) : ℝ :=
  rmsCoeff * prev + (1 - rmsCoeff) * rmsBlockValue xs

/-- The fast/slow RMS energy smoothing (Meters.h 983-987): the coefficient
exponentiated to the block size, applied to the block's average squared
value `m`. -/
noncomputable def rmsEnergyStep (coeff energy m : ℝ) (n : Nat) : ℝ :=
  coeff ^ n * energy + (1 - coeff ^ n) * m

/-- The claim's description of the published RMS update: `pow(coeff, N)`
applied to the block's average squared value. -/
noncomputable def publishedRmsSpec (rmsCoeff prev : ℝ) (xs : List ℝ) : ℝ :=
  rmsCoeff ^ xs.length * prev
    + (1 - rmsCoeff ^ xs.length) * (sumSq xs / ((max 1 xs.length : Nat) : ℝ))

/-! ### Ring-buffer lemmas -/

theorem getD_set_ne {α : Type} (l : List α) (i j : Nat) (x d : α) (h : i ≠ j) :
    (l.set i x).getD j d = l.getD j d := by
  simp [List.getD_eq_getElem?_getD, List.getElem?_set_ne h]

theorem getD_set_self {α : Type} (l : List α) (i : Nat) (x d : α) (h : i < l.length) :
    (l.set i x).getD i d = x := by
  simp [List.getD_eq_getElem?_getD, List.getElem?_set_self, h]

theorem add_mod_ne_self {C w t : Nat} (hw : w < C) (ht0 : 0 < t) (htC : t < C) :
    (w + t) % C ≠ w := by
  intro h
  have h2 : w ≡ w + t [MOD C] := by
    unfold Nat.ModEq
    rw [Nat.mod_eq_of_lt hw, h]
  have h3 : C ∣ (w + t - w) := (Nat.modEq_iff_dvd' (Nat.le_add_right w t)).mp h2
  rw [Nat.add_sub_cancel_left] at h3
  exact absurd (Nat.le_of_dvd ht0 h3) (not_le.mpr htC)

theorem slice_fresh {α : Type} (cap : Nat) (d : α) :
    (RingBuf.fresh cap d).slice d = [] := by
  simp [RingBuf.fresh, RingBuf.slice, ringSlice, ringRead]

/-- Normal form for the read-out index: the leading modulo can be dropped. -/
theorem ringRead_eq_window {α : Type} (buf : List α) (w cnt : Nat) (d : α) :
    ringRead buf w cnt d =
      (List.range cnt).map fun i =>
        buf.getD ((w + buf.length - cnt + i) % buf.length) d := by
  unfold ringRead
  refine List.map_congr_left fun i _ => ?_
  rw [Nat.mod_add_mod]

/-- Effect of one push on the linearised contents: append while the ring is
still filling, evict the oldest entry once it is full. -/
theorem slice_push {α : Type} (d : α) (r : RingBuf α) (x : α)
    (hw : r.w < r.buf.length) (hf : r.filled ≤ r.buf.length) :
    (r.push x).slice d =
      if r.filled < r.buf.length then r.slice d ++ [x]
      else (r.slice d).drop 1 ++ [x] := by
  obtain ⟨buf, w, filled⟩ := r
  simp only at hw hf
  have hC : 0 < buf.length := lt_of_le_of_lt (Nat.zero_le w) hw
  by_cases h : filled < buf.length
  · -- still filling: the new entry lands just past the old window
    rw [if_pos h]
    show ringSlice (buf.set w x) ((w + 1) % buf.length) (min buf.length (filled + 1)) d
        = ringSlice buf w filled d ++ [x]
    rw [ringSlice, ringSlice, ringRead_eq_window, ringRead_eq_window, List.length_set]
    rw [min_eq_right hf, min_eq_right (by omega : min buf.length (filled + 1) ≤ buf.length)]
    rw [min_eq_right (by omega : filled + 1 ≤ buf.length)]
    have hwin : ∀ i : Nat,
        ((w + 1) % buf.length + buf.length - (filled + 1) + i) % buf.length
          = (w + (buf.length - filled + i)) % buf.length := by
      intro i
      have h1 : (w + 1) % buf.length + buf.length - (filled + 1) + i
          = (w + 1) % buf.length + (buf.length - filled - 1 + i) := by omega
      rw [h1, Nat.mod_add_mod]
      congr 1
      omega
    have hwin0 : ∀ i : Nat,
        (w + buf.length - filled + i) % buf.length
          = (w + (buf.length - filled + i)) % buf.length := by
      intro i
      congr 1
      omega
    rw [List.range_succ, List.map_append, List.map_singleton]
    congr 1
    · refine List.map_congr_left fun i hi => ?_
      rw [List.mem_range] at hi
      rw [hwin i, hwin0 i]
      have hne : (w + (buf.length - filled + i)) % buf.length ≠ w :=
        add_mod_ne_self hw (by omega) (by omega)
      exact getD_set_ne _ _ _ _ _ fun hww => hne hww.symm
    · rw [hwin filled]
      have hidx : (w + (buf.length - filled + filled)) % buf.length = w := by
        have h1 : buf.length - filled + filled = buf.length := by omega
        rw [h1, Nat.add_mod_right, Nat.mod_eq_of_lt hw]
      rw [hidx, getD_set_self _ _ _ _ hw]
  · -- full ring: the oldest entry is evicted
    rw [if_neg h]
    have hfull : filled = buf.length := le_antisymm hf (not_lt.mp h)
    subst hfull
    obtain ⟨k, hk⟩ := Nat.exists_eq_succ_of_ne_zero hC.ne'
    show ringSlice (buf.set w x) ((w + 1) % buf.length) (min buf.length (buf.length + 1)) d
        = (ringSlice buf w buf.length d).drop 1 ++ [x]
    rw [ringSlice, ringSlice, ringRead_eq_window, ringRead_eq_window, List.length_set]
    rw [min_self, min_eq_right (by omega : min buf.length (buf.length + 1) ≤ buf.length)]
    rw [min_eq_left (Nat.le_succ _)]
    have hwin : ∀ i : Nat,
        ((w + 1) % buf.length + buf.length - buf.length + i) % buf.length
          = (w + (1 + i)) % buf.length := by
      intro i
      have h1 : (w + 1) % buf.length + buf.length - buf.length + i
          = (w + 1) % buf.length + i := by omega
      rw [h1, Nat.mod_add_mod]
      congr 1
      omega
    have hwin0 : ∀ i : Nat,
        (w + buf.length - buf.length + i) % buf.length = (w + i) % buf.length := by
      intro i
      congr 1
      omega
    rw [hk] at hwin hwin0 hw ⊢
    rw [show List.drop 1 (List.map (fun i =>
          buf.getD ((w + k.succ - k.succ + i) % k.succ) d) (List.range k.succ))
        = List.map ((fun i => buf.getD ((w + k.succ - k.succ + i) % k.succ) d) ∘ Nat.succ)
            (List.range k) from by
      rw [List.range_succ_eq_map, List.map_cons, List.drop_one, List.tail_cons, List.map_map]]
    rw [List.range_succ, List.map_append, List.map_singleton]
    congr 1
    · refine List.map_congr_left fun i hi => ?_
      rw [List.mem_range] at hi
      simp only [Function.comp_apply]
      rw [hwin i, hwin0 (Nat.succ i)]
      have hne : (w + (1 + i)) % k.succ ≠ w := by
        refine add_mod_ne_self hw (by omega) ?_
        omega
      rw [getD_set_ne _ _ _ _ _ fun hww => hne hww.symm]
      congr 2
      omega
    · rw [hwin k]
      have hidx : (w + (1 + k)) % k.succ = w := by
        have h1 : 1 + k = k.succ := by omega
        rw [h1, Nat.add_mod_right, Nat.mod_eq_of_lt hw]
      rw [hidx, getD_set_self _ _ _ _ (by rw [hk]; exact hw)]

/-- Pushing a stream into a fresh ring: the filled count saturates at the
capacity and the linearised read-out is the suffix of the stream that still
fits, oldest first. -/
theorem pushAll_fresh {α : Type} (d : α) (cap : Nat) (hcap : 0 < cap) (xs : List α) :
    ((RingBuf.fresh cap d).pushAll xs).buf.length = cap ∧
    ((RingBuf.fresh cap d).pushAll xs).w = xs.length % cap ∧
    ((RingBuf.fresh cap d).pushAll xs).filled = min cap xs.length ∧
    ((RingBuf.fresh cap d).pushAll xs).slice d = xs.drop (xs.length - cap) := by
  induction xs using List.reverseRecOn with
  | nil =>
      refine ⟨by simp [RingBuf.fresh, RingBuf.pushAll], ?_, ?_, ?_⟩
      · simp [RingBuf.fresh, RingBuf.pushAll, Nat.zero_mod]
      · simp [RingBuf.fresh, RingBuf.pushAll]
      · simp [RingBuf.pushAll, slice_fresh]
  | append_singleton ys x ih =>
      obtain ⟨ihlen, ihw, ihfilled, ihslice⟩ := ih
      have hstep : (RingBuf.fresh cap d).pushAll (ys ++ [x])
          = ((RingBuf.fresh cap d).pushAll ys).push x := by
        simp [RingBuf.pushAll, List.foldl_append]
      set s := (RingBuf.fresh cap d).pushAll ys with hs
      have hw : s.w < s.buf.length := by
        rw [ihlen, ihw]
        exact Nat.mod_lt _ hcap
      have hf : s.filled ≤ s.buf.length := by
        rw [ihlen, ihfilled]
        exact min_le_left _ _
      refine ⟨?_, ?_, ?_, ?_⟩
      · rw [hstep]
        show (s.buf.set s.w x).length = cap
        rw [List.length_set, ihlen]
      · rw [hstep]
        show (s.w + 1) % s.buf.length = (ys ++ [x]).length % cap
        rw [ihlen, ihw, Nat.mod_add_mod, List.length_append]
        rfl
      · rw [hstep]
        show min s.buf.length (s.filled + 1) = min cap (ys ++ [x]).length
        rw [ihlen, ihfilled, List.length_append]
        simp only [List.length_singleton]
        omega
      · rw [hstep, slice_push d s x hw hf, ihlen, ihfilled, ihslice, List.length_append]
        simp only [List.length_singleton]
        by_cases hcase : ys.length < cap
        · rw [if_pos (by omega : min cap ys.length < cap)]
          have h0 : ys.length - cap = 0 := by omega
          have h1 : ys.length + 1 - cap = 0 := by omega
          rw [h0, h1, List.drop_zero, List.drop_zero]
        · rw [if_neg (by omega : ¬ min cap ys.length < cap)]
          rw [List.drop_drop, List.drop_append_of_le_length (by omega)]
          congr 2
          omega

theorem take_succ_set {α : Type} (l : List α) (n : Nat) (x : α) (h : n < l.length) :
    (l.set n x).take (n + 1) = l.take n ++ [x] := by
  rw [List.set_eq_take_cons_drop x h, List.take_append_eq_append_take,
    List.take_take, List.length_take]
  rw [min_eq_right (Nat.le_succ n), min_eq_left (Nat.le_of_lt h)]
  have h1 : n + 1 - n = 1 := by omega
  rw [h1]
  rfl

theorem set_last_eq_append {α : Type} (l : List α) (ys : List α) (x : α)
    (hlen : l.length = ys.length + 1) (htake : l.take ys.length = ys) :
    l.set ys.length x = ys ++ [x] := by
  rw [List.set_eq_take_cons_drop x (by omega), htake,
    List.drop_eq_nil_of_le (by omega)]

theorem map_getD_range {α : Type} (l : List α) (d : α) :
    (List.range l.length).map (fun i => l.getD i d) = l := by
  apply List.ext_getElem
  · simp
  · intro j hj1 hj2
    simp only [List.getElem_map, List.getElem_range]
    rw [List.getD_eq_getElem?_getD, List.getElem?_eq_getElem hj2]
    rfl

/-- When the spectrogram ring has wrapped, the consumer linearisation agrees
with the generic full-ring slice. -/
theorem ordered_eq_slice {α : Type} (d : α) (buf : List α) (w : Nat)
    (_hw : w < buf.length) :
    SpecRing.orderedColumns ⟨buf, w, true⟩ d
      = RingBuf.slice ⟨buf, w, buf.length⟩ d := by
  show (List.range buf.length).map (fun i => buf.getD ((w + i) % buf.length) d)
      = ringSlice buf w buf.length d
  rw [ringSlice, ringRead_eq_window, min_self]
  refine List.map_congr_left fun i _ => ?_
  congr 2
  omega

/-- The cut-off count in `ringSlice` is immaterial once it reaches the
capacity. -/
theorem ringSlice_of_ge {α : Type} (buf : List α) (w f : Nat) (d : α)
    (h : buf.length ≤ f) :
    ringSlice buf w f d = ringRead buf w buf.length d := by
  rw [ringSlice, min_eq_left h]

/-- Pushing a stream of columns into a fresh spectrogram ring: the `wrapped`
flag records whether the capacity has been reached, and the consumer
linearisation is the suffix of the stream that still fits, oldest first. -/
theorem specRing_pushAll_fresh {α : Type} (d : α) (cap : Nat) (hcap : 0 < cap)
    (xs : List α) :
    ((SpecRing.fresh cap d).pushAll xs).buf.length = cap ∧
    ((SpecRing.fresh cap d).pushAll xs).w = xs.length % cap ∧
    ((SpecRing.fresh cap d).pushAll xs).wrapped = decide (cap ≤ xs.length) ∧
    ((SpecRing.fresh cap d).pushAll xs).orderedColumns d = xs.drop (xs.length - cap) := by
  induction xs using List.reverseRecOn with
  | nil =>
      refine ⟨by simp [SpecRing.fresh, SpecRing.pushAll], ?_, ?_, ?_⟩
      · simp [SpecRing.fresh, SpecRing.pushAll, Nat.zero_mod]
      · show false = decide (cap ≤ 0)
        rw [decide_eq_false (by omega : ¬ cap ≤ 0)]
      · simp [SpecRing.pushAll, SpecRing.fresh, SpecRing.orderedColumns]
  | append_singleton ys x ih =>
      obtain ⟨ihlen, ihw, ihwrap, ihcols⟩ := ih
      have hstep : (SpecRing.fresh cap d).pushAll (ys ++ [x])
          = ((SpecRing.fresh cap d).pushAll ys).push x := by
        simp [SpecRing.pushAll, List.foldl_append]
      set s := (SpecRing.fresh cap d).pushAll ys with hs
      have hw : s.w < s.buf.length := by
        rw [ihlen, ihw]
        exact Nat.mod_lt _ hcap
      have hlen2 : (s.buf.set s.w x).length = cap := by rw [List.length_set, ihlen]
      have hw2 : (s.w + 1) % s.buf.length = (ys.length + 1) % cap := by
        rw [ihlen, ihw, Nat.mod_add_mod]
      refine ⟨?_, ?_, ?_, ?_⟩
      · rw [hstep]
        exact hlen2
      · rw [hstep]
        show (s.w + 1) % s.buf.length = (ys ++ [x]).length % cap
        rw [hw2, List.length_append, List.length_singleton]
      · rw [hstep]
        show (s.wrapped || decide ((s.w + 1) % s.buf.length = 0))
            = decide (cap ≤ (ys ++ [x]).length)
        rw [hw2, ihwrap, List.length_append, List.length_singleton]
        by_cases hcase : cap ≤ ys.length
        · rw [decide_eq_true hcase, Bool.true_or]
          exact (decide_eq_true (by omega : cap ≤ ys.length + 1)).symm
        · rw [decide_eq_false hcase, Bool.false_or]
          by_cases hfill : ys.length + 1 = cap
          · rw [hfill, Nat.mod_self, decide_eq_true rfl,
              decide_eq_true (le_refl cap)]
          · rw [Nat.mod_eq_of_lt (by omega : ys.length + 1 < cap),
              decide_eq_false (by omega : ¬ (ys.length + 1 = 0)),
              decide_eq_false (by omega : ¬ cap ≤ ys.length + 1)]
      · rw [hstep]
        have hdropRHS : (ys ++ [x]).length - cap = ys.length + 1 - cap := by
          rw [List.length_append, List.length_singleton]
        by_cases hcase : cap ≤ ys.length
        · -- already wrapped: behaves like the full generic ring
          have hwrap : s.wrapped = true := by
            rw [ihwrap]
            exact decide_eq_true hcase
          have hpush : s.push x
              = ⟨s.buf.set s.w x, (s.w + 1) % s.buf.length, true⟩ := by
            show (⟨s.buf.set s.w x, (s.w + 1) % s.buf.length,
              s.wrapped || decide ((s.w + 1) % s.buf.length = 0)⟩ : SpecRing α)
                = ⟨s.buf.set s.w x, (s.w + 1) % s.buf.length, true⟩
            rw [hwrap, Bool.true_or]
          rw [hpush, ordered_eq_slice d _ _
            (by rw [List.length_set]; exact Nat.mod_lt _ (by omega))]
          have hAslice : RingBuf.slice ⟨s.buf.set s.w x, (s.w + 1) % s.buf.length,
              (s.buf.set s.w x).length⟩ d
              = ((⟨s.buf, s.w, s.buf.length⟩ : RingBuf α).push x).slice d := by
            show ringSlice (s.buf.set s.w x) ((s.w + 1) % s.buf.length)
                (s.buf.set s.w x).length d
              = ringSlice (s.buf.set s.w x) ((s.w + 1) % s.buf.length)
                (min s.buf.length (s.buf.length + 1)) d
            rw [ringSlice_of_ge _ _ _ _ (le_refl _),
              ringSlice_of_ge _ _ _ _ (by rw [List.length_set]; omega)]
          rw [hAslice, slice_push d _ x hw (le_refl _), if_neg (lt_irrefl _)]
          have hseta : s = ⟨s.buf, s.w, true⟩ := by
            rw [← hwrap]
          have hscols : (⟨s.buf, s.w, s.buf.length⟩ : RingBuf α).slice d
              = ys.drop (ys.length - cap) := by
            rw [← ordered_eq_slice d s.buf s.w hw, ← hseta]
            exact ihcols
          rw [hscols, List.drop_drop, hdropRHS,
            List.drop_append_of_le_length (by omega)]
          congr 2
          omega
        · -- still filling linearly
          have hwrapf : s.wrapped = false := by
            rw [ihwrap]
            exact decide_eq_false hcase
          have hsw : s.w = ys.length := by
            rw [ihw]
            exact Nat.mod_eq_of_lt (by omega)
          have htake : s.buf.take ys.length = ys := by
            have h0 := ihcols
            simp only [SpecRing.orderedColumns, hwrapf, Bool.false_eq_true,
              if_false] at h0
            rw [hsw, ihlen, min_eq_left (by omega),
              Nat.sub_eq_zero_of_le (by omega), List.drop_zero] at h0
            exact h0
          rw [hdropRHS, Nat.sub_eq_zero_of_le (by omega), List.drop_zero]
          by_cases hfill : ys.length + 1 = cap
          · -- this push wraps the ring for the first time
            have hw2val : (s.w + 1) % s.buf.length = 0 := by
              rw [hsw, ihlen, hfill, Nat.mod_self]
            show SpecRing.orderedColumns ⟨s.buf.set s.w x, (s.w + 1) % s.buf.length,
                s.wrapped || decide ((s.w + 1) % s.buf.length = 0)⟩ d = ys ++ [x]
            have hbuf2 : s.buf.set s.w x = ys ++ [x] := by
              rw [hsw]
              exact set_last_eq_append _ _ _ (by rw [ihlen]; omega) htake
            have hwrapped2 : (s.wrapped || decide ((s.w + 1) % s.buf.length = 0))
                = true := by
              rw [hwrapf, hw2val, Bool.false_or]
              exact decide_eq_true rfl
            rw [hwrapped2]
            show (List.range (s.buf.set s.w x).length).map
                (fun i => (s.buf.set s.w x).getD
                  (((s.w + 1) % s.buf.length + i) % (s.buf.set s.w x).length) d)
              = ys ++ [x]
            rw [hw2val, hbuf2]
            have hmapeq : (List.range (ys ++ [x]).length).map
                (fun i => (ys ++ [x]).getD ((0 + i) % (ys ++ [x]).length) d)
                = (List.range (ys ++ [x]).length).map
                  (fun i => (ys ++ [x]).getD i d) := by
              refine List.map_congr_left fun i hi => ?_
              rw [List.mem_range] at hi
              rw [Nat.zero_add, Nat.mod_eq_of_lt hi]
            rw [hmapeq, map_getD_range]
          · -- still below capacity after the push
            have hw2val : (s.w + 1) % s.buf.length = ys.length + 1 := by
              rw [hsw, ihlen]
              exact Nat.mod_eq_of_lt (by omega)
            show SpecRing.orderedColumns ⟨s.buf.set s.w x, (s.w + 1) % s.buf.length,
                s.wrapped || decide ((s.w + 1) % s.buf.length = 0)⟩ d = ys ++ [x]
            simp only [SpecRing.orderedColumns, hwrapf, hw2val, Bool.false_or]
            rw [decide_eq_false (by omega : ¬ (ys.length + 1 = 0))]
            simp only [Bool.false_eq_true, if_false]
            rw [List.length_set, ihlen, min_eq_left (by omega), hsw]
            rw [take_succ_set _ _ _ (by rw [ihlen]; omega), htake]

/-- C6: for every ring of the system (waveform buckets, oscilloscope
samples, loudness history — write index plus saturating filled counter —
and the spectrogram column ring, which replaces the counter by a `wrapped`
flag), pushing exactly `capacity + 1` entries into a fresh ring leaves the
filled count saturated at the capacity (respectively `wrapped` raised, so
the consumer treats all columns as valid), evicts exactly the oldest entry,
and the linearised read-out starting at `(writeIndex - filled + capacity) %
capacity` returns the last `capacity` pushed entries oldest-to-newest. -/
theorem ring_wrap_fifo {α : Type} (d : α) (cap : Nat) (xs : List α)
    (hcap : 0 < cap) (hlen : xs.length = cap + 1) :
    (((RingBuf.fresh cap d).pushAll xs).filled = cap ∧
      ((RingBuf.fresh cap d).pushAll xs).slice d = xs.drop 1) ∧
    (((SpecRing.fresh cap d).pushAll xs).wrapped = true ∧
      ((SpecRing.fresh cap d).pushAll xs).orderedColumns d = xs.drop 1) := by
  obtain ⟨-, -, hfilled, hslice⟩ := pushAll_fresh d cap hcap xs
  obtain ⟨-, -, hwrap, hcols⟩ := specRing_pushAll_fresh d cap hcap xs
  refine ⟨⟨?_, ?_⟩, ?_, ?_⟩
  · rw [hfilled, hlen]
    omega
  · rw [hslice, hlen]
    congr 1
    omega
  · rw [hwrap, hlen]
    exact decide_eq_true (by omega)
  · rw [hcols, hlen]
    congr 1
    omega

theorem ring_wrap_fifo_witness :
    (0 < 2 ∧ ([5, 7, 9] : List Int).length = 2 + 1) ∧
    ((((RingBuf.fresh 2 (0 : Int)).pushAll [5, 7, 9]).filled = 2 ∧
      ((RingBuf.fresh 2 (0 : Int)).pushAll [5, 7, 9]).slice 0
        = ([5, 7, 9] : List Int).drop 1) ∧
    (((SpecRing.fresh 2 (0 : Int)).pushAll [5, 7, 9]).wrapped = true ∧
      ((SpecRing.fresh 2 (0 : Int)).pushAll [5, 7, 9]).orderedColumns 0
        = ([5, 7, 9] : List Int).drop 1)) :=
  ⟨⟨by decide, by decide⟩, ring_wrap_fifo (0 : Int) 2 [5, 7, 9] (by decide) (by decide)⟩

/-- C2: when the non-blocking try-lock on the shared aggregate fails,
`fillSnapshot` and `requestAudioDump` return without modifying any field of
the caller's destination value — the consumer silently keeps its previous
snapshot, and neither routine has an error result to report. -/
theorem snapshot_try_lock_fail_preserves (st : SharedStateM)
    (peakLAtomic peakRAtomic sampleRate : ℝ) (includeAudioHistory : Bool)
    (snapshot : SnapshotM) (dest : AudioDumpDest) :
    fillSnapshot false st peakLAtomic peakRAtomic sampleRate
        includeAudioHistory snapshot = snapshot ∧
    requestAudioDump false st dest = dest :=
  ⟨rfl, rfl⟩

/-! ### Loudness-gate lemmas -/

theorem one_e12_eq_rpow : (1.0e-12 : ℝ) = (10 : ℝ) ^ (-(12 : ℝ)) := by
  rw [Real.rpow_neg (by norm_num)]
  rw [show ((12 : ℝ)) = ((12 : ℕ) : ℝ) by norm_num]
  rw [Real.rpow_natCast]
  norm_num

theorem gateBoundaryEnergy_loudness : energyToLoudness gateBoundaryEnergy = -70 := by
  have hfloor : (1.0e-12 : ℝ) ≤ gateBoundaryEnergy := by
    rw [gateBoundaryEnergy, one_e12_eq_rpow]
    exact (Real.rpow_le_rpow_left_iff (by norm_num)).mpr (by norm_num)
  rw [energyToLoudness, max_eq_right hfloor, gateBoundaryEnergy,
    Real.logb_rpow (by norm_num) (by norm_num)]
  norm_num

theorem energyToLoudness_one : energyToLoudness 1 = -0.691 := by
  rw [energyToLoudness, max_eq_right (by norm_num : (1.0e-12 : ℝ) ≤ 1), Real.logb_one]
  ring

theorem energyToLoudness_mono {a b : ℝ} (h : a ≤ b) :
    energyToLoudness a ≤ energyToLoudness b := by
  rw [energyToLoudness, energyToLoudness]
  have h1 : (0 : ℝ) < max 1.0e-12 a := lt_of_lt_of_le (by norm_num) (le_max_left _ _)
  have h2 : max 1.0e-12 a ≤ max 1.0e-12 b := max_le_max le_rfl h
  have h3 := Real.logb_le_logb_of_le (by norm_num : (1 : ℝ) < 10) h1 h2
  linarith

theorem sum_lt_of_forall_lt (l : List ℝ) (c : ℝ) (hne : l ≠ [])
    (h : ∀ a ∈ l, a < c) : l.sum < (l.length : ℝ) * c := by
  induction l with
  | nil => exact absurd rfl hne
  | cons x xs ih =>
      rw [List.sum_cons, List.length_cons]
      have hx := h x (List.mem_cons_self x xs)
      by_cases hxs : xs = []
      · subst hxs
        simp only [List.sum_nil, add_zero, List.length_nil]
        push_cast
        linarith
      · have hrec := ih hxs fun a ha => h a (List.mem_cons_of_mem x ha)
        push_cast
        push_cast at hrec
        linarith

/-- A nonempty list of reals contains a member at or above its mean. -/
theorem exists_mean_le (l : List ℝ) (hne : l ≠ []) :
    ∃ a ∈ l, l.sum / (l.length : ℝ) ≤ a := by
  by_contra hcon
  push_neg at hcon
  have hlen : l.length ≠ 0 := fun hc => hne (List.length_eq_zero.mp hc)
  have hlenR : ((l.length : ℝ)) ≠ 0 := Nat.cast_ne_zero.mpr hlen
  have hsum := sum_lt_of_forall_lt l (l.sum / (l.length : ℝ)) hne hcon
  rw [mul_comm, div_mul_cancel₀ l.sum hlenR] at hsum
  exact lt_irrefl _ hsum

/-- The source's strict stage-1 filter agrees with the amended
specification's complement-of-at-or-below filter. -/
theorem stage1_filter_amended (blocks : List ℝ) :
    (blocks.filter fun e => decide (energyToLoudness e > -70))
      = blocks.filter fun e => decide (¬ energyToLoudness e ≤ -70) :=
  List.filter_congr fun e _ => by
    rw [decide_eq_decide]
    exact not_le.symm

theorem integratedFromBlocks_eq_specAmended (blocks : List ℝ) :
    integratedFromBlocks blocks = integratedSpecAmended blocks := by
  rw [integratedFromBlocks, integratedSpecAmended, stage1_filter_amended]

/-- C1 (amended): for every ring state with at least one stored block, the
recomputed integrated loudness applies the two-stage gate exactly as the
specification describes it, with the stage-1 boundary corrected so that
blocks at or below -70 LUFS are discarded: survivors of the absolute gate
are averaged, a relative gate 10 LU below that average's loudness is
derived, the result is the loudness of the mean energy of the survivors at
or above the relative gate, -100 is published when stage 1 discards
everything, and the stage-1 ungated mean loudness is the fallback when
stage 2 removes every block. -/
theorem integrated_two_stage_gate (buf : List ℝ) (w filled : Nat)
    (h1 : 1 ≤ filled) (h2 : filled ≤ buf.length) :
    updateIntegratedMetrics buf w filled
      = integratedSpecAmended (ringRead buf w filled 0) := by
  rw [updateIntegratedMetrics, if_neg (by omega), integratedFromBlocks_eq_specAmended]

theorem integrated_two_stage_gate_witness :
    (1 ≤ 1 ∧ 1 ≤ ([(1 : ℝ)]).length) ∧
    updateIntegratedMetrics [(1 : ℝ)] 0 1
      = integratedSpecAmended (ringRead [(1 : ℝ)] 0 1 0) :=
  ⟨⟨le_refl 1, by simp⟩, integrated_two_stage_gate [(1 : ℝ)] 0 1 (le_refl 1) (by simp)⟩

theorem ringRead_singleton (e : ℝ) : ringRead [e] 0 1 0 = [e] := by
  simp [ringRead, Nat.mod_one]

/-- C1 counterexample: a ring holding one block whose loudness is exactly
-70 LUFS.  The source's absolute gate is strict, discards it and publishes
the -100 sentinel; the claim's literal wording (discard only strictly below
-70) keeps it and yields -70. -/
theorem integrated_gate_boundary_counterexample :
    updateIntegratedMetrics [gateBoundaryEnergy] 0 1 = -100 ∧
    integratedSpecLiteral (ringRead [gateBoundaryEnergy] 0 1 0) = -70 ∧
    updateIntegratedMetrics [gateBoundaryEnergy] 0 1
      ≠ integratedSpecLiteral (ringRead [gateBoundaryEnergy] 0 1 0) := by
  have hsurv : ([gateBoundaryEnergy].filter
      fun e => decide (energyToLoudness e > -70)) = [] := by
    simp only [List.filter_cons, List.filter_nil, gateBoundaryEnergy_loudness]
    rw [decide_eq_false (by norm_num : ¬ ((-70 : ℝ) > -70))]
    simp
  have hcode : updateIntegratedMetrics [gateBoundaryEnergy] 0 1 = -100 := by
    rw [updateIntegratedMetrics, if_neg (by simp)]
    rw [ringRead_singleton, integratedFromBlocks]
    simp only [hsurv, List.length_nil]
    simp
  have hkeep : ([gateBoundaryEnergy].filter
      fun e => decide (energyToLoudness e ≥ -70)) = [gateBoundaryEnergy] := by
    simp only [List.filter_cons, List.filter_nil, gateBoundaryEnergy_loudness]
    rw [decide_eq_true (by norm_num : ((-70 : ℝ) ≥ -70))]
    simp
  have hspec : integratedSpecLiteral (ringRead [gateBoundaryEnergy] 0 1 0) = -70 := by
    rw [ringRead_singleton, integratedSpecLiteral]
    simp only [hkeep, List.length_singleton]
    rw [if_neg (by norm_num)]
    have hmean : gateBoundaryEnergy / ((1 : Nat) : ℝ) = gateBoundaryEnergy := by
      norm_num
    simp only [List.sum_singleton, hmean, gateBoundaryEnergy_loudness]
    have hgated : ([gateBoundaryEnergy].filter
        fun e => decide (energyToLoudness e ≥ -70 - 10)) = [gateBoundaryEnergy] := by
      simp only [List.filter_cons, List.filter_nil, gateBoundaryEnergy_loudness]
      rw [decide_eq_true (by norm_num : ((-70 : ℝ) ≥ -70 - 10))]
      simp
    simp only [hgated, List.length_singleton]
    rw [if_neg (by norm_num)]
    simp only [List.sum_singleton, hmean, gateBoundaryEnergy_loudness]
  refine ⟨hcode, hspec, ?_⟩
  rw [hcode, hspec]
  norm_num

/-- C10: whenever at least one stored block survives the absolute -70 LUFS
gate, some surviving block (one at or above the survivors' mean energy,
whose loudness is then at least the mean's loudness and so strictly above
mean loudness - 10 LU) also passes the relative gate; the `gatedCount == 0`
fallback branch is therefore unreachable and the published integrated
loudness always equals the relatively-gated mean. -/
theorem relative_gate_fallback_unreachable (blocks : List ℝ)
    (hsurv : (blocks.filter fun e => decide (energyToLoudness e > -70)) ≠ []) :
    ((blocks.filter fun e => decide (energyToLoudness e > -70)).filter
        fun e => decide (energyToLoudness e ≥
          energyToLoudness
            ((blocks.filter fun e => decide (energyToLoudness e > -70)).sum /
              (((blocks.filter fun e => decide (energyToLoudness e > -70)).length : ℝ)))
            - 10)) ≠ [] ∧
    integratedFromBlocks blocks =
      energyToLoudness
        (((blocks.filter fun e => decide (energyToLoudness e > -70)).filter
            fun e => decide (energyToLoudness e ≥
              energyToLoudness
                ((blocks.filter fun e => decide (energyToLoudness e > -70)).sum /
                  (((blocks.filter fun e =>
                      decide (energyToLoudness e > -70)).length : ℝ)))
                - 10)).sum /
          ((((blocks.filter fun e => decide (energyToLoudness e > -70)).filter
              fun e => decide (energyToLoudness e ≥
                energyToLoudness
                  ((blocks.filter fun e => decide (energyToLoudness e > -70)).sum /
                    (((blocks.filter fun e =>
                        decide (energyToLoudness e > -70)).length : ℝ)))
                  - 10)).length : ℝ))) := by
  set S := blocks.filter fun e => decide (energyToLoudness e > -70) with hS
  set m := S.sum / (S.length : ℝ) with hm
  obtain ⟨a, haS, ham⟩ := exists_mean_le S hsurv
  have hgate : energyToLoudness m - 10 ≤ energyToLoudness a := by
    have hmono := energyToLoudness_mono ham
    linarith
  have haG : a ∈ S.filter fun e =>
      decide (energyToLoudness e ≥ energyToLoudness m - 10) := by
    rw [List.mem_filter]
    exact ⟨haS, decide_eq_true hgate⟩
  have hG : (S.filter fun e =>
      decide (energyToLoudness e ≥ energyToLoudness m - 10)) ≠ [] :=
    List.ne_nil_of_mem haG
  refine ⟨hG, ?_⟩
  rw [integratedFromBlocks]
  simp only [← hS, ← hm]
  rw [if_neg fun hc => hsurv (List.length_eq_zero.mp hc)]
  rw [if_neg fun hc => hG (List.length_eq_zero.mp hc)]

theorem filter_one_stage1 :
    (([(1 : ℝ)]).filter fun e => decide (energyToLoudness e > -70)) = [(1 : ℝ)] := by
  simp only [List.filter_cons, List.filter_nil, energyToLoudness_one]
  rw [decide_eq_true (by norm_num : ((-0.691 : ℝ) > -70))]
  simp

theorem relative_gate_fallback_unreachable_witness :
    (([(1 : ℝ)]).filter fun e => decide (energyToLoudness e > -70)) ≠ [] ∧
    ((([(1 : ℝ)]).filter fun e => decide (energyToLoudness e > -70)).filter
        fun e => decide (energyToLoudness e ≥
          energyToLoudness
            ((([(1 : ℝ)]).filter fun e => decide (energyToLoudness e > -70)).sum /
              (((([(1 : ℝ)]).filter fun e =>
                  decide (energyToLoudness e > -70)).length : ℝ)))
            - 10)) ≠ [] :=
  ⟨by rw [filter_one_stage1]; simp,
    (relative_gate_fallback_unreachable [(1 : ℝ)]
      (by rw [filter_one_stage1]; simp)).1⟩

/-! ### Loudness-range lemmas -/

theorem ringRead_length {α : Type} (buf : List α) (w cnt : Nat) (d : α) :
    (ringRead buf w cnt d).length = cnt := by
  simp [ringRead]

/-- The code's clamped upper index agrees with the specification's ceiling
order statistic for percentiles in [0, 1]. -/
theorem sortedPercentile_eq_spec (sorted : List ℝ) (valid : Nat) (p : ℝ)
    (hp0 : 0 ≤ p) (hp1 : p ≤ 1) :
    sortedPercentile sorted valid p = lraSpecPercentile sorted valid p := by
  simp only [sortedPercentile, lraSpecPercentile]
  have hidx0 : 0 ≤ ((valid - 1 : Nat) : ℝ) * p := mul_nonneg (Nat.cast_nonneg _) hp0
  by_cases hint : ((⌊((valid - 1 : Nat) : ℝ) * p⌋₊ : ℝ)) = ((valid - 1 : Nat) : ℝ) * p
  · have hfrac : ((valid - 1 : Nat) : ℝ) * p
        - ((⌊((valid - 1 : Nat) : ℝ) * p⌋₊ : ℝ)) = 0 := by
      rw [hint]; ring
    rw [hfrac, mul_zero, mul_zero]
  · have hlt : ((⌊((valid - 1 : Nat) : ℝ) * p⌋₊ : ℝ)) < ((valid - 1 : Nat) : ℝ) * p :=
      lt_of_le_of_ne (Nat.floor_le hidx0) hint
    have hfl_lt_ceil : ⌊((valid - 1 : Nat) : ℝ) * p⌋₊ < ⌈((valid - 1 : Nat) : ℝ) * p⌉₊ :=
      Nat.cast_lt.mp (lt_of_lt_of_le hlt (Nat.le_ceil _))
    have hceil : ⌈((valid - 1 : Nat) : ℝ) * p⌉₊ = ⌊((valid - 1 : Nat) : ℝ) * p⌋₊ + 1 :=
      le_antisymm (Nat.ceil_le_floor_add_one _) (by omega)
    have hidxle : ((valid - 1 : Nat) : ℝ) * p ≤ ((valid - 1 : Nat) : ℝ) :=
      mul_le_of_le_one_right (Nat.cast_nonneg _) hp1
    have hceil_le : ⌈((valid - 1 : Nat) : ℝ) * p⌉₊ ≤ valid - 1 :=
      Nat.ceil_le.mpr hidxle
    have hupper : min (valid - 1) (⌊((valid - 1 : Nat) : ℝ) * p⌋₊ + 1)
        = ⌊((valid - 1 : Nat) : ℝ) * p⌋₊ + 1 :=
      min_eq_right (by omega)
    rw [hupper, ← hceil]

theorem sorted_getD_mono (l : List ℝ) (hs : List.Sorted (· ≤ ·) l)
    {i j : Nat} (hij : i ≤ j) (hj : j < l.length) :
    l.getD i 0 ≤ l.getD j 0 := by
  have hi : i < l.length := Nat.lt_of_le_of_lt hij hj
  rw [List.getD_eq_getElem?_getD, List.getElem?_eq_getElem hi,
    List.getD_eq_getElem?_getD, List.getElem?_eq_getElem hj]
  simp only [Option.getD_some]
  rcases Nat.eq_or_lt_of_le hij with rfl | hlt
  · exact le_refl _
  · have h := hs.rel_get_of_lt (show (⟨i, hi⟩ : Fin l.length) < ⟨j, hj⟩ from hlt)
    simpa [List.get_eq_getElem] using h

theorem interp_le_right {a b f : ℝ} (hab : a ≤ b) (hf1 : f ≤ 1) :
    a + (b - a) * f ≤ b := by nlinarith

theorem interp_ge_left {a b f : ℝ} (hab : a ≤ b) (hf0 : 0 ≤ f) :
    a ≤ a + (b - a) * f := by nlinarith

/-- On a sorted list the interpolated percentile is monotone in the
percentile, so P95 dominates P10 and the source's `max 0` clamp is inert. -/
theorem sortedPercentile_mono_p (sorted : List ℝ) (valid : Nat)
    (hs : List.Sorted (· ≤ ·) sorted) (hlen : sorted.length = valid)
    (hv : 2 ≤ valid) {p q : ℝ} (hp0 : 0 ≤ p) (hpq : p ≤ q) (hq1 : q ≤ 1) :
    sortedPercentile sorted valid p ≤ sortedPercentile sorted valid q := by
  simp only [sortedPercentile]
  have hq0 : 0 ≤ q := le_trans hp0 hpq
  have hip0 : 0 ≤ ((valid - 1 : Nat) : ℝ) * p := mul_nonneg (Nat.cast_nonneg _) hp0
  have hiq0 : 0 ≤ ((valid - 1 : Nat) : ℝ) * q := mul_nonneg (Nat.cast_nonneg _) hq0
  have hipq : ((valid - 1 : Nat) : ℝ) * p ≤ ((valid - 1 : Nat) : ℝ) * q :=
    mul_le_mul_of_nonneg_left hpq (Nat.cast_nonneg _)
  have hiq_le : ((valid - 1 : Nat) : ℝ) * q ≤ ((valid - 1 : Nat) : ℝ) :=
    mul_le_of_le_one_right (Nat.cast_nonneg _) hq1
  set lp := ⌊((valid - 1 : Nat) : ℝ) * p⌋₊ with hlp
  set lq := ⌊((valid - 1 : Nat) : ℝ) * q⌋₊ with hlq
  have hlpq : lp ≤ lq := Nat.floor_mono hipq
  have hlq_le : lq ≤ valid - 1 := by
    rw [hlq]
    have h1 : ⌊((valid - 1 : Nat) : ℝ) * q⌋₊ ≤ ⌊((valid - 1 : Nat) : ℝ)⌋₊ :=
      Nat.floor_mono hiq_le
    rwa [Nat.floor_natCast] at h1
  have hfp0 : 0 ≤ ((valid - 1 : Nat) : ℝ) * p - (lp : ℝ) :=
    sub_nonneg.mpr (Nat.floor_le hip0)
  have hfp1 : ((valid - 1 : Nat) : ℝ) * p - (lp : ℝ) ≤ 1 := by
    have h1 := Nat.lt_floor_add_one (((valid - 1 : Nat) : ℝ) * p)
    rw [← hlp] at h1
    linarith
  have hfq0 : 0 ≤ ((valid - 1 : Nat) : ℝ) * q - (lq : ℝ) :=
    sub_nonneg.mpr (Nat.floor_le hiq0)
  have hup_lt : min (valid - 1) (lp + 1) < sorted.length := by
    rw [hlen]; omega
  have hlq_lt : lq < sorted.length := by rw [hlen]; omega
  have hlp_le_up : lp ≤ min (valid - 1) (lp + 1) := le_min (by omega) (by omega)
  have hA_le_Bp : sorted.getD lp 0 ≤ sorted.getD (min (valid - 1) (lp + 1)) 0 :=
    sorted_getD_mono sorted hs hlp_le_up hup_lt
  by_cases hcase : lp = lq
  · rw [hcase] at hA_le_Bp ⊢
    have hfpfq : ((valid - 1 : Nat) : ℝ) * p - (lq : ℝ)
        ≤ ((valid - 1 : Nat) : ℝ) * q - (lq : ℝ) := by linarith
    have hprod := mul_nonneg (sub_nonneg.mpr hA_le_Bp) (sub_nonneg.mpr hfpfq)
    nlinarith [hprod]
  · have hlplt : lp < lq := lt_of_le_of_ne hlpq hcase
    have hup_le_lq : min (valid - 1) (lp + 1) ≤ lq :=
      le_trans (min_le_right _ _) (by omega)
    have hBp_le_Aq : sorted.getD (min (valid - 1) (lp + 1)) 0 ≤ sorted.getD lq 0 :=
      sorted_getD_mono sorted hs hup_le_lq hlq_lt
    have hAq_le_Bq : sorted.getD lq 0 ≤ sorted.getD (min (valid - 1) (lq + 1)) 0 :=
      sorted_getD_mono sorted hs (le_min (by omega) (by omega)) (by rw [hlen]; omega)
    have h1 : sorted.getD lp 0
        + (sorted.getD (min (valid - 1) (lp + 1)) 0 - sorted.getD lp 0)
          * (((valid - 1 : Nat) : ℝ) * p - (lp : ℝ))
        ≤ sorted.getD (min (valid - 1) (lp + 1)) 0 :=
      interp_le_right hA_le_Bp hfp1
    have h2 : sorted.getD lq 0
        ≤ sorted.getD lq 0
          + (sorted.getD (min (valid - 1) (lq + 1)) 0 - sorted.getD lq 0)
            * (((valid - 1 : Nat) : ℝ) * q - (lq : ℝ)) :=
      interp_ge_left hAq_le_Bq hfq0
    linarith

/-- The code's `remove_if (v < threshold)` keeps exactly the samples at or
above the threshold, as the specification words it. -/
theorem lra_filter_eq (samples : List ℝ) (g : ℝ) :
    (samples.filter fun v => decide (¬ v < g))
      = samples.filter fun v => decide (g ≤ v) :=
  List.filter_congr fun v _ => by
    rw [decide_eq_decide]
    exact not_lt

theorem lraCore_eq_spec (samples : List ℝ) (integrated : ℝ) :
    lraCore samples integrated = lraSpec samples integrated := by
  simp only [lraCore, lraSpec]
  rw [← lra_filter_eq]
  set remaining := samples.filter fun v => decide (¬ v < integrated - 20) with hrem
  by_cases hlen : remaining.length < 2
  · rw [if_pos hlen, if_pos hlen]
  · rw [if_neg hlen, if_neg hlen]
    have hs : List.Sorted (· ≤ ·) (remaining.insertionSort (· ≤ ·)) :=
      List.sorted_insertionSort _ _
    have hslen : (remaining.insertionSort (· ≤ ·)).length = remaining.length :=
      (List.perm_insertionSort _ _).length_eq
    have h10 := sortedPercentile_eq_spec (remaining.insertionSort (· ≤ ·))
      remaining.length 0.10 (by norm_num) (by norm_num)
    have h95 := sortedPercentile_eq_spec (remaining.insertionSort (· ≤ ·))
      remaining.length 0.95 (by norm_num) (by norm_num)
    have hmono := sortedPercentile_mono_p (remaining.insertionSort (· ≤ ·))
      remaining.length hs hslen (by omega)
      (by norm_num : (0:ℝ) ≤ 0.10) (by norm_num : (0.10:ℝ) ≤ 0.95)
      (by norm_num : (0.95:ℝ) ≤ 1)
    rw [← h10, ← h95, max_eq_right (by linarith)]

/-- C4: for every state of the short-term loudness history ring, the
recomputed loudness range first discards samples below
`integrated - 20 LU`; with fewer than 2 remaining it is 0; otherwise it is
exactly P95 - P10 of the sorted remaining values, linearly interpolated
between the floor and ceiling order statistics at index `(n-1)*p`. -/
theorem loudness_range_spec_eq (buf : List ℝ) (w filled : Nat)
    (integrated : ℝ) (h2 : filled ≤ buf.length) :
    updateLoudnessRange buf w filled integrated
      = lraSpec (ringRead buf w filled 0) integrated := by
  rw [updateLoudnessRange]
  by_cases hcond : filled < 2 ∨ buf.length = 0
  · rw [if_pos hcond]
    have hflt : filled < 2 := by
      rcases hcond with hc | hc
      · exact hc
      · omega
    have hremlen : ((ringRead buf w filled 0).filter
        fun v => decide (integrated - 20 ≤ v)).length < 2 :=
      lt_of_le_of_lt (le_trans (List.length_filter_le _ _)
        (le_of_eq (ringRead_length buf w filled 0))) hflt
    simp only [lraSpec]
    rw [if_pos hremlen]
  · rw [if_neg hcond, lraCore_eq_spec]

theorem loudness_range_spec_eq_witness :
    2 ≤ ([(0 : ℝ), 0]).length ∧
    updateLoudnessRange [(0 : ℝ), 0] 0 2 0
      = lraSpec (ringRead [(0 : ℝ), 0] 0 2 0) 0 :=
  ⟨by simp, loudness_range_spec_eq [(0 : ℝ), 0] 0 2 0 (by simp)⟩

/-! ### Correlation lemmas -/

theorem jlimit_mem {lo hi : ℝ} (v : ℝ) (h : lo ≤ hi) :
    lo ≤ jlimit lo hi v ∧ jlimit lo hi v ≤ hi := by
  rw [jlimit]
  split_ifs with h1 h2
  · exact ⟨le_refl _, h⟩
  · exact ⟨h, le_refl _⟩
  · exact ⟨by linarith, by linarith⟩

theorem zipWith_mul_self_sum (l : List ℝ) :
    (List.zipWith (· * ·) l l).sum = sumSq l := by
  induction l with
  | nil => simp [sumSq]
  | cons x xs ih =>
      simp only [List.zipWith_cons_cons, List.sum_cons, sumSq, List.map_cons] at *
      rw [ih]

theorem zipWith_mul_neg_sum (l : List ℝ) :
    (List.zipWith (· * ·) l (l.map fun x => -x)).sum = -sumSq l := by
  induction l with
  | nil => simp [sumSq]
  | cons x xs ih =>
      simp only [List.map_cons, List.zipWith_cons_cons, List.sum_cons, sumSq,
        List.map_map] at *
      rw [ih]
      ring

theorem sumSq_neg (l : List ℝ) : sumSq (l.map fun x => -x) = sumSq l := by
  rw [sumSq, sumSq, List.map_map]
  refine congrArg List.sum (List.map_congr_left fun x _ => ?_)
  simp [Function.comp]

theorem sumSq_pos_of_mag {l : List ℝ} (h : 1.0e-9 < Real.sqrt (sumSq l)) :
    0 < sumSq l :=
  Real.sqrt_pos.mp (lt_trans (by norm_num) h)

/-- C5: the published per-block correlation always lies in [-1, 1]; it is
the clamped Pearson quotient when both channel magnitudes exceed 1e-9 and
exactly 0 when either magnitude is at or below that guard; identical
channels of non-negligible magnitude give exactly 1 and anti-phase channels
give exactly -1. -/
theorem correlation_guard_and_bounds (l r : List ℝ) :
    (-1 ≤ blockCorrelation l r ∧ blockCorrelation l r ≤ 1) ∧
    (1.0e-9 < Real.sqrt (sumSq l) ∧ 1.0e-9 < Real.sqrt (sumSq r) →
      blockCorrelation l r
        = jlimit (-1) 1 ((List.zipWith (· * ·) l r).sum
            / (Real.sqrt (sumSq l) * Real.sqrt (sumSq r)))) ∧
    (Real.sqrt (sumSq l) ≤ 1.0e-9 ∨ Real.sqrt (sumSq r) ≤ 1.0e-9 →
      blockCorrelation l r = 0) ∧
    (r = l → 1.0e-9 < Real.sqrt (sumSq l) → blockCorrelation l r = 1) ∧
    (r = (l.map fun x => -x) → 1.0e-9 < Real.sqrt (sumSq l) →
      blockCorrelation l r = -1) := by
  refine ⟨?_, ?_, ?_, ?_, ?_⟩
  · rw [blockCorrelation]
    split_ifs with hcond
    · exact jlimit_mem _ (by norm_num)
    · norm_num
  · intro hcond
    rw [blockCorrelation, if_pos hcond]
  · intro hcond
    rw [blockCorrelation, if_neg ?hneg]
    case hneg =>
      rcases hcond with hc | hc
      · exact fun hand => absurd hand.1 (not_lt.mpr hc)
      · exact fun hand => absurd hand.2 (not_lt.mpr hc)
  · rintro rfl hmag
    rw [blockCorrelation, if_pos ⟨hmag, hmag⟩, zipWith_mul_self_sum,
      Real.mul_self_sqrt (le_of_lt (sumSq_pos_of_mag hmag)),
      div_self (ne_of_gt (sumSq_pos_of_mag hmag))]
    rw [jlimit, if_neg (by norm_num), if_neg (by norm_num)]
  · rintro rfl hmag
    have hmag2 : 1.0e-9 < Real.sqrt (sumSq (l.map fun x => -x)) := by
      rwa [sumSq_neg]
    rw [blockCorrelation, if_pos ⟨hmag, hmag2⟩, zipWith_mul_neg_sum, sumSq_neg,
      Real.mul_self_sqrt (le_of_lt (sumSq_pos_of_mag hmag)),
      neg_div, div_self (ne_of_gt (sumSq_pos_of_mag hmag))]
    rw [jlimit, if_neg (by norm_num), if_neg (by norm_num)]

theorem correlation_guard_and_bounds_witness :
    ((1.0e-9 : ℝ) < Real.sqrt (sumSq [(1 : ℝ)])) ∧
    blockCorrelation [(1 : ℝ)] [(1 : ℝ)] = 1 ∧
    blockCorrelation [(1 : ℝ)] [(-1 : ℝ)] = -1 := by
  have hsq : sumSq [(1 : ℝ)] = 1 := by simp [sumSq]
  have hmag : (1.0e-9 : ℝ) < Real.sqrt (sumSq [(1 : ℝ)]) := by
    rw [hsq, Real.sqrt_one]
    norm_num
  refine ⟨hmag, ?_, ?_⟩
  · exact (correlation_guard_and_bounds [(1 : ℝ)] [(1 : ℝ)]).2.2.2.1 rfl hmag
  · exact (correlation_guard_and_bounds [(1 : ℝ)] [(-1 : ℝ)]).2.2.2.2 (by simp) hmag

/-! ### FFT accumulator lemmas -/

/-- Feeding samples that do not fill the accumulator emits no frame and
only advances the write position. -/
theorem fftFeed_no_emit {α : Type} (size hop : Nat) (xs : List α) :
    ∀ s : FftAcc α, s.fftInputPos + xs.length < size →
      (fftFeed size hop s xs).frames = s.frames ∧
      (fftFeed size hop s xs).fftInputPos = s.fftInputPos + xs.length := by
  induction xs with
  | nil =>
      intro s h
      exact ⟨rfl, by simp [fftFeed]⟩
  | cons x xs ih =>
      intro s h
      simp only [List.length_cons] at h
      have hne : ¬ size ≤ s.fftInputPos + 1 := by omega
      have hpos1 : (fftPush size hop s x).fftInputPos = s.fftInputPos + 1 := by
        simp only [fftPush]
        rw [if_neg hne]
      have hfr1 : (fftPush size hop s x).frames = s.frames := by
        simp only [fftPush]
        rw [if_neg hne]
      have hlt : (fftPush size hop s x).fftInputPos + xs.length < size := by
        rw [hpos1]
        omega
      obtain ⟨ha, hb⟩ := ih (fftPush size hop s x) hlt
      have hfold : fftFeed size hop s (x :: xs)
          = fftFeed size hop (fftPush size hop s x) xs := rfl
      refine ⟨?_, ?_⟩
      · rw [hfold, ha, hfr1]
      · rw [hfold, hb, hpos1, List.length_cons]
        omega

/-- The sample that fills the accumulator emits exactly one frame and
resets the write position to `hop`. -/
theorem fftPush_emit {α : Type} (size hop : Nat) (s : FftAcc α) (x : α)
    (h : size ≤ s.fftInputPos + 1) :
    (fftPush size hop s x).frames = s.frames ++ [s.fftInput.set s.fftInputPos x] ∧
    (fftPush size hop s x).fftInputPos = hop := by
  constructor
  · simp only [fftPush]
    rw [if_pos h]
  · simp only [fftPush]
    rw [if_pos h]

/-- C3 (code evaluation at the failing input): from a fresh accumulator,
feeding `fftSize + hop = 2048 + 512 = 2560` samples produces exactly one
frame.  The first frame fires when the accumulator fills at sample 2048;
the rotate then keeps only the newest `hop = 512` samples and resumes at
position `hop`, so the next frame needs `fftSize - hop = 1536` further
samples (25% overlap).  Under the claim — a new frame for every
`hop = fftSize/4` new samples after the first, i.e. 75% overlap — the same
input would produce two frames. -/
theorem fft_hop_cadence_code_eval :
    fftHopOf fftSize = 512 ∧
    fftSize + fftHopOf fftSize = 2560 ∧
    (fftFeed fftSize (fftHopOf fftSize) (FftAcc.fresh fftSize (0 : Int))
        (List.replicate 2560 0)).frames.length = 1 := by
  have hhop : fftHopOf fftSize = 512 := by norm_num [fftHopOf, fftSize]
  refine ⟨hhop, by rw [hhop]; norm_num [fftSize], ?_⟩
  have hsplit : (List.replicate 2560 (0 : Int))
      = (List.replicate 2047 0 ++ [0]) ++ List.replicate 512 0 := by
    rw [show (2560 : Nat) = 2047 + 1 + 512 by norm_num]
    rw [List.replicate_add, List.replicate_add, List.replicate_one]
  rw [hsplit]
  have happ1 : fftFeed fftSize (fftHopOf fftSize) (FftAcc.fresh fftSize (0 : Int))
        ((List.replicate 2047 0 ++ [0]) ++ List.replicate 512 0)
      = fftFeed fftSize (fftHopOf fftSize)
          (fftPush fftSize (fftHopOf fftSize)
            (fftFeed fftSize (fftHopOf fftSize)
              (FftAcc.fresh fftSize (0 : Int)) (List.replicate 2047 0)) 0)
          (List.replicate 512 0) := by
    rw [fftFeed, fftFeed, fftFeed, List.foldl_append, List.foldl_append,
      List.foldl_cons, List.foldl_nil]
  rw [happ1]
  obtain ⟨hfr1, hpos1⟩ := fftFeed_no_emit fftSize (fftHopOf fftSize)
    (List.replicate 2047 0) (FftAcc.fresh fftSize (0 : Int))
    (by simp only [FftAcc.fresh, List.length_replicate, fftSize]; norm_num)
  obtain ⟨hfr2, hpos2⟩ := fftPush_emit fftSize (fftHopOf fftSize)
    (fftFeed fftSize (fftHopOf fftSize) (FftAcc.fresh fftSize (0 : Int))
      (List.replicate 2047 0)) 0
    (by
      rw [hpos1]
      simp only [FftAcc.fresh, List.length_replicate, fftSize]
      norm_num)
  obtain ⟨hfr3, -⟩ := fftFeed_no_emit fftSize (fftHopOf fftSize)
    (List.replicate 512 0)
    (fftPush fftSize (fftHopOf fftSize)
      (fftFeed fftSize (fftHopOf fftSize)
        (FftAcc.fresh fftSize (0 : Int)) (List.replicate 2047 0)) 0)
    (by
      rw [hpos2, hhop]
      simp only [List.length_replicate, fftSize]
      norm_num)
  rw [hfr3, hfr2, hfr1]
  have hfrfresh : (FftAcc.fresh fftSize (0 : Int)).frames = [] := rfl
  rw [hfrfresh, List.nil_append, List.length_singleton]

/-! ### Reset of the loudness statistics -/

/-- C7 counterexample: after `resetLoudnessStatistics` on a state whose
shared loudness-history ring holds two zero samples, the ring holds the
-100 sentinel in every slot — not zero — and the private short-term ring
feeding the LRA computation is untouched. -/
theorem reset_statistics_counterexample :
    (resetLoudnessStatistics c7State).sharedLoudnessHistory = [-100, -100] ∧
    (resetLoudnessStatistics c7State).sharedLoudnessHistory
      ≠ List.replicate 2 (0 : ℝ) ∧
    (resetLoudnessStatistics c7State).shortTermHistoryBuffer = [3] := by
  have h1 : (resetLoudnessStatistics c7State).sharedLoudnessHistory
      = [(-100 : ℝ), -100] := rfl
  refine ⟨h1, ?_, rfl⟩
  rw [h1]
  intro hc
  rw [show List.replicate 2 (0 : ℝ) = [0, 0] from rfl] at hc
  injection hc with hx hrest
  norm_num at hx

/-- C7 (amended): `resetLoudnessStatistics` resets the max-hold loudness
values (and atomic peak values) to their sentinels, clears both clip
flags, resets the shared display loudness-history ring's write index and
filled count and fills its storage with the -100 sentinel (not zero), and
leaves the live momentary/short-term energy accumulators and the private
short-term (LRA) history ring unchanged. -/
theorem reset_statistics_effects (s : LoudnessStatsState) :
    (resetLoudnessStatistics s).maxMomentaryLufs = -100 ∧
    (resetLoudnessStatistics s).maxShortTermLufs = -100 ∧
    (resetLoudnessStatistics s).peakL = 0 ∧
    (resetLoudnessStatistics s).peakR = 0 ∧
    (resetLoudnessStatistics s).sharedMaxMomentary = -100 ∧
    (resetLoudnessStatistics s).sharedMaxShortTerm = -100 ∧
    (resetLoudnessStatistics s).sharedClippedL = false ∧
    (resetLoudnessStatistics s).sharedClippedR = false ∧
    (resetLoudnessStatistics s).sharedLoudnessHistoryWrite = 0 ∧
    (resetLoudnessStatistics s).sharedLoudnessHistoryFilled = 0 ∧
    (resetLoudnessStatistics s).sharedLoudnessHistory
      = List.replicate s.sharedLoudnessHistory.length (-100) ∧
    (resetLoudnessStatistics s).momentaryEnergy = s.momentaryEnergy ∧
    (resetLoudnessStatistics s).shortTermEnergy = s.shortTermEnergy ∧
    (resetLoudnessStatistics s).shortTermHistoryBuffer
      = s.shortTermHistoryBuffer ∧
    (resetLoudnessStatistics s).shortTermHistoryWriteIndex
      = s.shortTermHistoryWriteIndex ∧
    (resetLoudnessStatistics s).shortTermHistoryFilled
      = s.shortTermHistoryFilled :=
  ⟨rfl, rfl, rfl, rfl, rfl, rfl, rfl, rfl, rfl, rfl, rfl, rfl, rfl, rfl, rfl,
    rfl⟩

/-! ### prepareToPlay lemmas -/

theorem croundI_natCast (n : Nat) : croundI ((n : ℕ) : ℝ) = n := by
  rw [croundI, if_neg (not_lt.mpr (Nat.cast_nonneg n)), round_natCast]

theorem croundI_nonpos {x : ℝ} (h : x ≤ 0) : croundI x ≤ 0 := by
  rw [croundI]
  split_ifs with h1
  · have h2 : 0 ≤ round (-x) := by
      rw [round_eq]
      exact Int.floor_nonneg.mpr (by linarith)
    omega
  · have hx0 : x = 0 := le_antisymm h (not_lt.mp h1)
    rw [hx0]
    simp

/-- C8 counterexample: at the invalid configuration `sampleRate = 0`,
`prepareToPlay` does not fail; it completes and computes every ring
capacity (clamped to at least 1 by the `jmax` guards), so the claim that
the call fails fast rather than proceeding is false. -/
theorem prepare_accepts_invalid_counterexample :
    (prepareToPlay 0 512).historySamples = 1 ∧
    (prepareToPlay 0 512).integratedBlockSamples = 1 ∧
    (prepareToPlay 0 512).integratedCapacity = 1500 ∧
    (prepareToPlay 0 512).loudnessHistoryCapacity = 400 ∧
    (prepareToPlay 0 512).loudnessHistoryInterval = 0 := by
  have hzero : croundI ((0 : ℝ)) = 0 := by
    rw [croundI, if_neg (lt_irrefl 0)]
    simp
  refine ⟨?_, ?_, ?_, ?_, ?_⟩
  · show max 1 (croundI ((0 : ℝ) * 10)) = 1
    rw [show (0 : ℝ) * 10 = 0 by norm_num, hzero]
    decide
  · show max 1 (croundI ((0 : ℝ) * 0.4)) = 1
    rw [show (0 : ℝ) * 0.4 = 0 by norm_num, hzero]
    decide
  · show max 1 (croundI ((600.0 : ℝ) / 0.4)) = 1500
    rw [show (600.0 : ℝ) / 0.4 = ((1500 : ℕ) : ℝ) by norm_num, croundI_natCast]
    decide
  · show max 1 (croundI ((20.0 : ℝ) / 0.05)) = 400
    rw [show (20.0 : ℝ) / 0.05 = ((400 : ℕ) : ℝ) by norm_num, croundI_natCast]
    decide
  · show (if (0 : ℝ) < 0 then _ else (0 : ℝ)) = 0
    rw [if_neg (lt_irrefl 0)]

/-- C8 (amended): `prepareToPlay` accepts any sample rate without
validation; for a non-positive sample rate it proceeds, flooring every
rate-derived count at 1 via the `jmax` guards (the rate-independent ring
capacities keep their nominal sizes) and the guarded shared interval
division yields 0 instead of dividing by the non-positive rate. -/
theorem prepare_no_validation (sr : ℝ) (n : Int) (h : sr ≤ 0) :
    (prepareToPlay sr n).historySamples = 1 ∧
    (prepareToPlay sr n).integratedBlockSamples = 1 ∧
    (prepareToPlay sr n).loudnessHistoryIntervalSamples = 1 ∧
    (prepareToPlay sr n).waveformSamplesPerBucket = 1 ∧
    (prepareToPlay sr n).spectrogramHistoryWidth = 1 ∧
    (prepareToPlay sr n).integratedCapacity = 1500 ∧
    (prepareToPlay sr n).loudnessHistoryCapacity = 400 ∧
    (prepareToPlay sr n).loudnessHistoryInterval = 0 := by
  have hhist : max 1 (croundI (sr * 10)) = 1 := by
    have h1 : croundI (sr * 10) ≤ 0 := croundI_nonpos (by nlinarith)
    omega
  refine ⟨hhist, ?_, ?_, ?_, ?_, ?_, ?_, ?_⟩
  · show max 1 (croundI (sr * 0.4)) = 1
    have h1 : croundI (sr * 0.4) ≤ 0 := croundI_nonpos (by nlinarith)
    omega
  · show max 1 (croundI (sr * 0.05)) = 1
    have h1 : croundI (sr * 0.05) ≤ 0 := croundI_nonpos (by nlinarith)
    omega
  · show max 1 (max 1 (croundI (sr * 10)) / 512) = 1
    rw [hhist]
    decide
  · show max 1 ⌈3.0 * sr / ((max 1 (2048 / 4) : Nat) : ℝ)⌉ = 1
    have hden : (0 : ℝ) ≤ ((max 1 (2048 / 4) : Nat) : ℝ) := Nat.cast_nonneg _
    have hnum : 3.0 * sr ≤ 0 := by nlinarith
    have hq : 3.0 * sr / ((max 1 (2048 / 4) : Nat) : ℝ) ≤ 0 :=
      div_nonpos_iff.mpr (Or.inr ⟨hnum, hden⟩)
    have hceil : ⌈3.0 * sr / ((max 1 (2048 / 4) : Nat) : ℝ)⌉ ≤ 0 :=
      Int.ceil_le.mpr (by exact_mod_cast hq)
    omega
  · show max 1 (croundI ((600.0 : ℝ) / 0.4)) = 1500
    rw [show (600.0 : ℝ) / 0.4 = ((1500 : ℕ) : ℝ) by norm_num, croundI_natCast]
    decide
  · show max 1 (croundI ((20.0 : ℝ) / 0.05)) = 400
    rw [show (20.0 : ℝ) / 0.05 = ((400 : ℕ) : ℝ) by norm_num, croundI_natCast]
    decide
  · show (if (0 : ℝ) < sr then _ else (0 : ℝ)) = 0
    rw [if_neg (not_lt.mpr h)]

theorem prepare_no_validation_witness :
    ((0 : ℝ) ≤ 0) ∧
    ((prepareToPlay 0 512).historySamples = 1 ∧
     (prepareToPlay 0 512).waveformSamplesPerBucket = 1 ∧
     (prepareToPlay 0 512).loudnessHistoryInterval = 0) :=
  ⟨le_refl 0,
    ⟨(prepare_no_validation 0 512 (le_refl 0)).1,
     (prepare_no_validation 0 512 (le_refl 0)).2.2.2.1,
     (prepare_no_validation 0 512 (le_refl 0)).2.2.2.2.2.2.2⟩⟩

/-! ### Ballistics lemmas -/

/-- C9 counterexample: a one-sample block `[1/2]` with zero previous value
at 48 kHz.  The published per-channel RMS applies the unexponentiated
300 ms coefficient to the block RMS amplitude `sqrt(1/4) = 1/2`
(Meters.h 943-946), which differs from the claim's `pow(coeff, N)` applied
to the average squared value `1/4`. -/
theorem rms_smoothing_counterexample :
    publishedRmsStep (ballisticCoeff 48000 300) 0 [1 / 2]
      ≠ publishedRmsSpec (ballisticCoeff 48000 300) 0 [1 / 2] := by
  have hc1 : ballisticCoeff 48000 300 < 1 := by
    rw [ballisticCoeff]
    apply Real.exp_lt_one_iff.mpr
    norm_num
  have hsq : sumSq [(1 : ℝ) / 2] = 1 / 4 := by
    simp [sumSq]
    norm_num
  rw [publishedRmsStep, publishedRmsSpec, rmsBlockValue, hsq]
  simp only [List.length_singleton, pow_one]
  rw [show ((max 1 1 : Nat) : ℝ) = 1 by norm_num, div_one]
  rw [show Real.sqrt (1 / 4) = 1 / 2 from by
    rw [show (1 / 4 : ℝ) = (1 / 2) ^ 2 by norm_num]
    exact Real.sqrt_sq (by norm_num)]
  intro hc
  have : (1 - ballisticCoeff 48000 300) * (1 / 4) = 0 := by linarith
  have : ballisticCoeff 48000 300 = 1 := by linarith
  linarith

/-- C9 (amended): the smoothing coefficients are
`exp(-1/((ms/1000) * sampleRate))`; the peak envelope is updated per
sample with the rise coefficient exactly when the absolute sample exceeds
the envelope and the fall coefficient otherwise; the published per-channel
RMS applies the single 300 ms coefficient once per block to the block's
RMS amplitude `sqrt(mean square)` (not to the squared value and without
exponentiation), while the separate fast/slow RMS energies apply
`pow(coeff, N)` to the block's average squared value — which equals `N`
steps of per-sample smoothing toward that average. -/
theorem rms_smoothing_amended (c E m prev rise fall p0 x : ℝ) (xs : List ℝ)
    (n : Nat) (sr ms : ℝ) :
    ballisticCoeff sr ms = Real.exp (-1 / ((ms * 0.001) * sr)) ∧
    peakEnvelope rise fall p0 (x :: xs)
      = peakEnvelope rise fall
          (if |x| > p0 then rise * p0 + (1 - rise) * |x|
           else fall * p0 + (1 - fall) * |x|) xs ∧
    publishedRmsStep c prev xs
      = c * prev + (1 - c) * Real.sqrt (sumSq xs / ((max 1 xs.length : Nat) : ℝ)) ∧
    rmsEnergyStep c E m n
      = (List.range n).foldl (fun e _ => c * e + (1 - c) * m) E := by
  refine ⟨rfl, rfl, rfl, ?_⟩
  induction n with
  | zero => simp [rmsEnergyStep]
  | succ k ih =>
      rw [List.range_succ, List.foldl_append, ← ih]
      simp only [List.foldl_cons, List.foldl_nil]
      rw [rmsEnergyStep, rmsEnergyStep]
      ring

end EasyMeter
